import Mathlib

/-!
Shallow embedding of the `dynamodb_marshall` crate (src/lib.rs): the
conversions between the serde_json value model (`Value`) and the DynamoDB
attribute-value model (`AttributeValue`), together with the typed adapters
`marshall_t` / `unmarshall_t`.

Modelling conventions:
* machine integers are `ℕ` / `ℤ` with explicit range conditions;
* finite IEEE-754 binary64 values are carried as their exact rational
  value, with explicit constructors for the non-finite values;
* `serde_json::Map` (a BTreeMap) and `HashMap` are modelled as association
  lists, the BTreeMap's key-sorted order being the canonical list order;
* the float-to-shortest-decimal renderer used by
  `serde_json::Number::to_string` (the ryu library) is not part of this
  repository and enters the encoder as an explicit parameter `ftext`.
-/

namespace DynDB

/-- Finite binary64 floats are modelled by their exact rational value; the
non-finite values get explicit constructors.  Negative zero is identified
with zero (f64 equality, the only observation the code makes, identifies
them as well). -/
inductive F64 where
  | finite (q : ℚ)
  | inf
  | negInf
  | nan
deriving DecidableEq

/-- serde_json::Number: PosInt(u64) for non-negative integers, NegInt(i64)
for negative integers, Float(f64) for finite doubles (Number::from_f64
rejects non-finite input, so only finite doubles occur). -/
inductive JNumber where
  | posInt (n : ℕ)
  | negInt (i : ℤ)
  | float (q : ℚ)
deriving DecidableEq

/-- serde_json::Value. -/
inductive Value where
  | null
  | bool (b : Bool)
  | num (n : JNumber)
  | str (s : String)
  | arr (l : List Value)
  | obj (o : List (String × Value))

/-- aws_sdk_dynamodb::types::AttributeValue.  Blobs are byte lists (each
entry a u8).  The Rust enum is #[non_exhaustive]; `Unknown` stands for any
variant other than the ones the decoder's listed arms match, which the
decoder's catch-all arm handles together with `Null`. -/
inductive AttributeValue where
  | S (s : String)
  | N (v : String)
  | B (blob : List ℕ)
  | Bool (b : Bool)
  | Null (b : Bool)
  | M (o : List (String × AttributeValue))
  | L (l : List AttributeValue)
  | Ss (l : List String)
  | Ns (l : List String)
  | Bs (l : List (List ℕ))
  | Unknown

/-- Value of a list of decimal digit characters. -/
def digitsVal (ds : List Char) : ℕ :=
  ds.foldl (fun a c => a * 10 + (c.toNat - 48)) 0

/-- Digits part of str::parse::<i64> after the optional sign: one or more
ASCII digits whose signed value fits the i64 range. -/
def parseI64Digits (sign : ℤ) (ds : List Char) : Option ℤ :=
  if ds ≠ [] ∧ ds.all Char.isDigit then
    let v : ℤ := sign * digitsVal ds
    if -(2 ^ 63) ≤ v ∧ v ≤ 2 ^ 63 - 1 then some v else none
  else none

/-- str::parse::<i64> on a character list: an optional sign followed by
one or more ASCII digits, the value fitting the i64 range; anything else
is a parse error. -/
def parseI64Chars : List Char → Option ℤ
  | [] => none
  | c :: t =>
    if c = '+' then parseI64Digits 1 t
    else if c = '-' then parseI64Digits (-1) t
    else parseI64Digits 1 (c :: t)

/-- str::parse::<i64>. -/
def parseI64 (s : String) : Option ℤ := parseI64Chars s.data

/-- Splits a leading run of ASCII digits from a character list. -/
def spanDigits : List Char → List Char × List Char
  | [] => ([], [])
  | c :: t =>
    if c.isDigit then
      let p := spanDigits t
      (c :: p.1, p.2)
    else ([], c :: t)

/-- Parses an optional exponent suffix (('e'|'E') Sign? Digit+) that must
reach the end of the input; yields the signed exponent. -/
def parseExpPart : List Char → Option ℤ
  | [] => some 0
  | c :: t =>
    if c = 'e' ∨ c = 'E' then
      let p : ℤ × List Char :=
        match t with
        | '+' :: t' => (1, t')
        | '-' :: t' => (-1, t')
        | t' => (1, t')
      if p.2 ≠ [] ∧ p.2.all Char.isDigit then some (p.1 * digitsVal p.2)
      else none
    else none

/-- Exact rational value of integer digits, fraction digits and a decimal
exponent: (digits of ip followed by fp) × 10 ^ (e - length of fp).  The
powers are taken in ℕ and a single ℚ division is used, keeping the value
kernel-computable. -/
def decValue (ip fp : List Char) (e : ℤ) : ℚ :=
  let n : ℕ := digitsVal (ip ++ fp)
  let ee : ℤ := e - fp.length
  if 0 ≤ ee then ((n * 10 ^ ee.toNat : ℕ) : ℚ)
  else (n : ℚ) / ((10 ^ (-ee).toNat : ℕ) : ℚ)

/-- Parses the Number part of Rust's f64 grammar,
Digit+ ('.' Digit*)? Exp?  |  '.' Digit+ Exp?, returning its exact
rational value. -/
def parseDecimal (cs : List Char) : Option ℚ :=
  let pi := spanDigits cs
  match pi.2 with
  | '.' :: r2 =>
    let pf := spanDigits r2
    if pi.1 = [] ∧ pf.1 = [] then none
    else (parseExpPart pf.2).map fun e => decValue pi.1 pf.1 e
  | r1 =>
    if pi.1 = [] then none
    else (parseExpPart r1).map fun e => decValue pi.1 [] e

/-- Fuelled halving loop behind `natLog2`; structural recursion on the
fuel keeps it kernel-reducible. -/
def log2Aux : ℕ → ℕ → ℕ
  | 0, _ => 0
  | fuel + 1, n => if 2 ≤ n then log2Aux fuel (n / 2) + 1 else 0

/-- Floor of the base-two logarithm of a natural number (0 on 0 and 1),
equal to Nat.log2 since the fuel n bounds the iteration count log2 n. -/
def natLog2 (n : ℕ) : ℕ := log2Aux n n

/-- Floor of the base-two logarithm of the absolute value of a nonzero
rational.  The candidate from the numerator's and denominator's natLog2
is off by at most one and is corrected by an integer comparison of
numerator times 2^(-k) against denominator times 2^k. -/
def ratLog2Floor (q : ℚ) : ℤ :=
  let n := q.num.natAbs
  let d := q.den
  let k : ℤ := (natLog2 n : ℤ) - (natLog2 d : ℤ)
  if n * 2 ^ (-k).toNat < d * 2 ^ k.toNat then k - 1 else k

/-- Rounds the fraction A / B (with B positive) to the nearest integer,
ties to the even one. -/
def roundHalfEvenScaled (A B : ℤ) : ℤ :=
  let f := A.ediv B
  let r := A.emod B
  if 2 * r < B then f
  else if B < 2 * r then f + 1
  else if f % 2 = 0 then f else f + 1

/-- Value m × 2 ^ e as a rational, with the power taken in ℕ and at most
one ℚ division. -/
def dyadic (m : ℤ) (e : ℤ) : ℚ :=
  if 0 ≤ e then ((m * ((2 ^ e.toNat : ℕ) : ℤ) : ℤ) : ℚ)
  else (m : ℚ) / (((2 ^ (-e).toNat : ℕ) : ℤ) : ℚ)

/-- Magnitudes at or beyond this bound, 2^1024 - 2^970 (the rounding
midpoint above the largest finite double), round to an infinity. -/
def overflowBound : ℕ := 2 ^ 1024 - 2 ^ 970

/-- Round-to-nearest-even conversion of an exact rational to binary64:
magnitudes at or beyond `overflowBound` overflow to an infinity; otherwise
the mantissa is rounded at the exponent dictated by the normal/subnormal
range (binary64: 52 fraction bits, minimum exponent -1074). -/
def roundF64 (q : ℚ) : F64 :=
  if q = 0 then .finite 0
  else if overflowBound * q.den ≤ q.num.natAbs then
    if 0 < q.num then .inf else .negInf
  else
    let e : ℤ := max (-1074) (ratLog2Floor q - 52)
    let A : ℤ := q.num * ((2 ^ (-e).toNat : ℕ) : ℤ)
    let B : ℤ := (q.den : ℤ) * ((2 ^ e.toNat : ℕ) : ℤ)
    .finite (dyadic (roundHalfEvenScaled A B) e)

/-- Part of str::parse::<f64> after the optional sign: a case-insensitive
inf/infinity/nan, or a decimal Number; finite values are correctly rounded
to the nearest double, out-of-range values overflow to the infinities (the
parse still succeeds). -/
def parseF64Body (neg : Bool) (cs : List Char) : Option F64 :=
  let low := cs.map Char.toLower
  if low = "inf".data ∨ low = "infinity".data then
    some (if neg then .negInf else .inf)
  else if low = "nan".data then some .nan
  else (parseDecimal cs).map fun q => roundF64 (if neg then -q else q)

/-- str::parse::<f64> on a character list: an optional sign followed by
the number body; the empty list is a parse error. -/
def parseF64Chars : List Char → Option F64
  | [] => none
  | c :: t =>
    if c = '+' then parseF64Body false t
    else if c = '-' then parseF64Body true t
    else parseF64Body false (c :: t)

/-- str::parse::<f64>. -/
def parseF64 (s : String) : Option F64 := parseF64Chars s.data

/-- serde_json::Number::from(i64): negative input becomes NegInt, the rest
PosInt. -/
def jnumOfI64 (i : ℤ) : JNumber :=
  if i < 0 then .negInt i else .posInt i.toNat

/-- Value produced by serde_json::json! applied to an f64: Number on a
finite float, Null otherwise (Number::from_f64 yields None on non-finite
input and json! maps that None to Null). -/
def jsonOfF64 : F64 → Value
  | .finite q => .num (.float q)
  | _ => .null

/-- Body of the AttributeValue::N arm of unmarshall (src/lib.rs lines
58-70): when the text holds a '.', try f64, else try i64; on parse failure
fall back to the text itself as a string (serde_json::json! on a &String).
The Ns arm reaches this same code through its recursive
unmarshall(&AttributeValue::N(v.to_string())) call, so it is factored out
here. -/
def unmarshallN (v : String) : Value :=
  if v.data.contains '.' then
    match parseF64 v with
    | some f => jsonOfF64 f
    | none => .str v
  else
    match parseI64 v with
    | some i => .num (jnumOfI64 i)
    | none => .str v

/-- Fuelled little-endian base-10 digit extraction; structural recursion
on the fuel keeps it kernel-reducible. -/
def digitsAuxF : ℕ → ℕ → List ℕ
  | 0, _ => []
  | fuel + 1, n => if n = 0 then [] else n % 10 :: digitsAuxF fuel (n / 10)

/-- Little-endian base-10 digits of a natural number ([] on 0), equal to
Mathlib's Nat.digits 10 since the fuel n bounds the digit count. -/
def natDigits10 (n : ℕ) : List ℕ := digitsAuxF n n

/-- Decimal digit characters of a natural number, most significant first
("0" for zero). -/
def natChars (n : ℕ) : List Char :=
  if n = 0 then ['0'] else (natDigits10 n).reverse.map Nat.digitChar

/-- serde_json::Number::to_string: the integer variants render in plain
decimal, NegInt with a leading minus sign; the Float variant's
shortest-roundtrip rendering (ryu) lives outside this repository and is
the parameter `ftext`. -/
def jnumText (ftext : ℚ → String) : JNumber → String
  | .posInt n => ⟨natChars n⟩
  | .negInt i => ⟨'-' :: natChars i.natAbs⟩
  | .float q => ftext q

mutual
/-- marshall (src/lib.rs lines 22-38): serde_json::Value → AttributeValue,
parametrised by the external float renderer `ftext`. -/
def marshall (ftext : ℚ → String) : Value → AttributeValue
  | .null => .Null true
  | .bool b => .Bool b
  | .num n => .N (jnumText ftext n)
  | .str s => .S s
  | .arr l => .L (marshallList ftext l)
  | .obj o => .M (marshallObj ftext o)

/-- Element-wise marshall of an array (arr.iter().map(marshall).collect()). -/
def marshallList (ftext : ℚ → String) : List Value → List AttributeValue
  | [] => []
  | v :: t => marshall ftext v :: marshallList ftext t

/-- Entry-wise marshall of an object's entries
(o.iter().map(|(k, v)| (k.to_owned(), marshall(v)))). -/
def marshallObj (ftext : ℚ → String) :
    List (String × Value) → List (String × AttributeValue)
  | [] => []
  | (k, v) :: t => (k, marshall ftext v) :: marshallObj ftext t
end

mutual
/-- unmarshall (src/lib.rs lines 40-91): AttributeValue →
serde_json::Value.  The catch-all arm of the source covers Null(_) and any
unrecognized variant, both yielding Value::Null. -/
def unmarshall : AttributeValue → Value
  | .S s => .str s
  | .B blob => .arr (blob.map fun b => .num (.posInt b))
  | .Bool b => .bool b
  | .M o => .obj (unmarshallObj o)
  | .N v => unmarshallN v
  | .L l => .arr (unmarshallList l)
  | .Ns l => .arr (l.map fun v => unmarshallN v)
  | .Bs l => .arr (l.map fun blob => .arr (blob.map fun b => .num (.posInt b)))
  | .Ss l => .arr (l.map fun s => .str s)
  | .Null _ => .null
  | .Unknown => .null

/-- Element-wise unmarshall of a list (arr.iter().map(unmarshall)). -/
def unmarshallList : List AttributeValue → List Value
  | [] => []
  | v :: t => unmarshall v :: unmarshallList t

/-- Entry-wise unmarshall of a map's entries
(o.iter().map(|(k, v)| (k.to_owned(), unmarshall(v)))). -/
def unmarshallObj : List (String × AttributeValue) → List (String × Value)
  | [] => []
  | (k, v) :: t => (k, unmarshall v) :: unmarshallObj t
end

/-- marshall_t (src/lib.rs lines 12-15): serde_json::to_value's outcome on
the typed input is the argument `ser` (the external serializer lives
outside this repository); the ? operator propagates its error, otherwise
marshall is applied and the result wrapped in Ok. -/
def marshall_t (ftext : ℚ → String) (ser : Except String Value) :
    Except String AttributeValue :=
  match ser with
  | .error e => .error e
  | .ok m => .ok (marshall ftext m)

/-- unmarshall_t (src/lib.rs lines 17-20): unmarshall, then
serde_json::from_value, the latter entering as the argument `de`. -/
def unmarshall_t {T : Type} (de : Value → Except String T)
    (m : AttributeValue) : Except String T :=
  de (unmarshall m)

mutual
/-- Checks that an attribute value holds no Binary, NumberSet, StringSet
or BinarySet anywhere in its tree. -/
def avNoSet : AttributeValue → Bool
  | .S _ => true
  | .N _ => true
  | .B _ => false
  | .Bool _ => true
  | .Null _ => true
  | .M o => avNoSetObj o
  | .L l => avNoSetList l
  | .Ss _ => false
  | .Ns _ => false
  | .Bs _ => false
  | .Unknown => true

/-- List version of avNoSet. -/
def avNoSetList : List AttributeValue → Bool
  | [] => true
  | v :: t => avNoSet v && avNoSetList t

/-- Entry version of avNoSet. -/
def avNoSetObj : List (String × AttributeValue) → Bool
  | [] => true
  | (_, v) :: t => avNoSet v && avNoSetObj t
end

/-- Number well-formedness for the amended round-trip: an integer in the
i64 range, in serde_json's normal form (NegInt only for negatives). -/
def jnumIntOk : JNumber → Bool
  | .posInt n => decide (n ≤ 2 ^ 63 - 1)
  | .negInt i => decide (-(2 ^ 63) ≤ i) && decide (i < 0)
  | .float _ => false

mutual
/-- Value well-formedness for the amended round-trip: every number in the
tree satisfies jnumIntOk. -/
def valueIntOk : Value → Bool
  | .null => true
  | .bool _ => true
  | .num n => jnumIntOk n
  | .str _ => true
  | .arr l => valueIntOkList l
  | .obj o => valueIntOkObj o

/-- List version of valueIntOk. -/
def valueIntOkList : List Value → Bool
  | [] => true
  | v :: t => valueIntOk v && valueIntOkList t

/-- Entry version of valueIntOk. -/
def valueIntOkObj : List (String × Value) → Bool
  | [] => true
  | (_, v) :: t => valueIntOk v && valueIntOkObj t
end

/-- Tests for the List constructor of AttributeValue. -/
def isListAV : AttributeValue → Bool
  | .L _ => true
  | _ => false

theorem marshallList_eq_map (f : ℚ → String) (l : List Value) :
    marshallList f l = l.map (marshall f) := by
  induction l with
  | nil => rfl
  | cons v t ih => simp [marshallList, ih]

theorem marshallObj_eq_map (f : ℚ → String) (o : List (String × Value)) :
    marshallObj f o = o.map fun kv => (kv.1, marshall f kv.2) := by
  induction o with
  | nil => rfl
  | cons kv t ih => obtain ⟨k, v⟩ := kv; simp [marshallObj, ih]

theorem unmarshallList_eq_map (l : List AttributeValue) :
    unmarshallList l = l.map unmarshall := by
  induction l with
  | nil => rfl
  | cons v t ih => simp [unmarshallList, ih]

theorem unmarshallObj_eq_map (o : List (String × AttributeValue)) :
    unmarshallObj o = o.map fun kv => (kv.1, unmarshall kv.2) := by
  induction o with
  | nil => rfl
  | cons kv t ih => obtain ⟨k, v⟩ := kv; simp [unmarshallObj, ih]

theorem digitChar_isDigit {d : ℕ} (h : d < 10) : (Nat.digitChar d).isDigit = true := by
  interval_cases d <;> decide

theorem digitChar_sub48 {d : ℕ} (h : d < 10) : (Nat.digitChar d).toNat - 48 = d := by
  interval_cases d <;> decide

theorem digitsVal_append_single (a : List Char) (x : Char) :
    digitsVal (a ++ [x]) = digitsVal a * 10 + (x.toNat - 48) := by
  simp [digitsVal, List.foldl_append]

theorem digitsVal_rev_map (ds : List ℕ) (h : ∀ d ∈ ds, d < 10) :
    digitsVal (ds.reverse.map Nat.digitChar) = Nat.ofDigits 10 ds := by
  induction ds with
  | nil => rfl
  | cons d t ih =>
    have hd : d < 10 := h d (List.mem_cons_self d t)
    have ht : ∀ x ∈ t, x < 10 := fun x hx => h x (List.mem_cons_of_mem d hx)
    rw [List.reverse_cons, List.map_append, List.map_singleton,
      digitsVal_append_single, ih ht, Nat.ofDigits_cons, digitChar_sub48 hd]
    ring

theorem digitsAuxF_eq_digits (fuel n : ℕ) (h : n ≤ fuel) :
    digitsAuxF fuel n = Nat.digits 10 n := by
  induction fuel generalizing n with
  | zero =>
    interval_cases n
    simp [digitsAuxF]
  | succ fuel ih =>
    rw [digitsAuxF]
    by_cases hn : n = 0
    · subst hn; simp
    · have hlt : n / 10 < n := Nat.div_lt_self (by omega) (by norm_num)
      rw [if_neg hn,
        Nat.digits_def' (by norm_num : (1 : ℕ) < 10) (by omega : 0 < n),
        ih (n / 10) (by omega)]

theorem natDigits10_eq (n : ℕ) : natDigits10 n = Nat.digits 10 n :=
  digitsAuxF_eq_digits n n le_rfl

theorem digitsVal_natChars (n : ℕ) : digitsVal (natChars n) = n := by
  unfold natChars
  split
  · simp_all [digitsVal]
  · rw [natDigits10_eq,
      digitsVal_rev_map _ fun d hd => Nat.digits_lt_base (by norm_num) hd,
      Nat.ofDigits_digits]

theorem natChars_ne_nil (n : ℕ) : natChars n ≠ [] := by
  unfold natChars
  split
  · simp
  · simp [natDigits10_eq, Nat.digits_ne_nil_iff_ne_zero, *]

theorem natChars_digits (n : ℕ) : ∀ c ∈ natChars n, c.isDigit = true := by
  intro c hc
  unfold natChars at hc
  split at hc
  · simp at hc; subst hc; decide
  · rw [natDigits10_eq] at hc
    simp only [List.mem_map, List.mem_reverse] at hc
    obtain ⟨d, hd, rfl⟩ := hc
    exact digitChar_isDigit (Nat.digits_lt_base (by norm_num) hd)

theorem no_dot_of_digits {l : List Char} (h : ∀ c ∈ l, c.isDigit = true) :
    l.contains '.' = false := by
  rw [List.contains_eq_any_beq, List.any_eq_false]
  intro c hc hbeq
  rw [beq_iff_eq] at hbeq
  subst hbeq
  exact absurd (h _ hc) (by decide)

theorem isDigit_ne_plus {c : Char} (h : c.isDigit = true) : c ≠ '+' := by
  rintro rfl; exact absurd h (by decide)

theorem isDigit_ne_minus {c : Char} (h : c.isDigit = true) : c ≠ '-' := by
  rintro rfl; exact absurd h (by decide)

theorem data_mk (l : List Char) : (String.mk l).data = l := rfl

theorem parseI64Digits_pos {l : List Char} (hne : l ≠ [])
    (hdig : ∀ c ∈ l, c.isDigit = true)
    (hr : (digitsVal l : ℤ) ≤ 2 ^ 63 - 1) :
    parseI64Digits 1 l = some ((digitsVal l : ℤ)) := by
  unfold parseI64Digits
  rw [if_pos ⟨hne, by rw [List.all_eq_true]; exact hdig⟩]
  rw [if_pos ⟨by omega, by omega⟩]
  simp

theorem parseI64Digits_neg {l : List Char} (hne : l ≠ [])
    (hdig : ∀ c ∈ l, c.isDigit = true)
    (hr : (digitsVal l : ℤ) ≤ 2 ^ 63) :
    parseI64Digits (-1) l = some (-(digitsVal l : ℤ)) := by
  unfold parseI64Digits
  rw [if_pos ⟨hne, by rw [List.all_eq_true]; exact hdig⟩]
  rw [if_pos ⟨by omega, by omega⟩]
  simp

theorem parseI64Chars_digits {l : List Char} (hne : l ≠ [])
    (hdig : ∀ c ∈ l, c.isDigit = true)
    (hr : (digitsVal l : ℤ) ≤ 2 ^ 63 - 1) :
    parseI64Chars l = some ((digitsVal l : ℤ)) := by
  obtain ⟨c, t, rfl⟩ := List.exists_cons_of_ne_nil hne
  have hc : c.isDigit = true := hdig c (List.mem_cons_self c t)
  rw [parseI64Chars, if_neg (isDigit_ne_plus hc), if_neg (isDigit_ne_minus hc)]
  exact parseI64Digits_pos hne hdig hr

theorem parseI64_natChars {n : ℕ} (hn : (n : ℤ) ≤ 2 ^ 63 - 1) :
    parseI64 ⟨natChars n⟩ = some (n : ℤ) := by
  rw [parseI64, data_mk]
  rw [parseI64Chars_digits (natChars_ne_nil n) (natChars_digits n)
    (by rw [digitsVal_natChars]; exact hn)]
  rw [digitsVal_natChars]

theorem parseI64_negChars {m : ℕ} (hm : (m : ℤ) ≤ 2 ^ 63) :
    parseI64 ⟨'-' :: natChars m⟩ = some (-(m : ℤ)) := by
  rw [parseI64, data_mk, parseI64Chars, if_neg (by decide), if_pos rfl]
  rw [parseI64Digits_neg (natChars_ne_nil m) (natChars_digits m)
    (by rw [digitsVal_natChars]; exact hm)]
  rw [digitsVal_natChars]

theorem jnumOfI64_nonneg {n : ℕ} : jnumOfI64 (n : ℤ) = .posInt n := by
  unfold jnumOfI64
  rw [if_neg (by omega)]
  simp

theorem jnumOfI64_neg {i : ℤ} (h : i < 0) : jnumOfI64 i = .negInt i := by
  unfold jnumOfI64
  rw [if_pos h]

theorem unmarshallN_intText (f : ℚ → String) (n : JNumber)
    (h : jnumIntOk n = true) : unmarshallN (jnumText f n) = .num n := by
  cases n with
  | posInt m =>
    simp only [jnumIntOk, decide_eq_true_eq] at h
    rw [jnumText, unmarshallN]
    rw [data_mk, no_dot_of_digits (natChars_digits m), if_neg (by simp)]
    rw [parseI64_natChars (by push_cast; omega)]
    show Value.num (jnumOfI64 (m : ℤ)) = Value.num (.posInt m)
    rw [jnumOfI64_nonneg]
  | negInt i =>
    simp only [jnumIntOk, Bool.and_eq_true, decide_eq_true_eq] at h
    obtain ⟨h1, h2⟩ := h
    rw [jnumText, unmarshallN]
    have hdig : ∀ c ∈ '-' :: natChars i.natAbs, c.isDigit = true ∨ c = '-' := by
      intro c hc
      rcases List.mem_cons.mp hc with rfl | hc
      · exact Or.inr rfl
      · exact Or.inl (natChars_digits _ c hc)
    have hnodot : (('-' :: natChars i.natAbs).contains '.') = false := by
      rw [List.contains_cons]
      simp only [Bool.or_eq_false_iff]
      exact ⟨by decide, no_dot_of_digits (natChars_digits _)⟩
    rw [data_mk, hnodot, if_neg (by simp)]
    rw [parseI64_negChars (by omega)]
    have hi : -(i.natAbs : ℤ) = i := by omega
    show Value.num (jnumOfI64 (-(i.natAbs : ℤ))) = Value.num (.negInt i)
    rw [hi, jnumOfI64_neg h2]
  | float q => exact absurd h (by simp [jnumIntOk])

mutual
/-- Round-trip of marshall then unmarshall over values whose numbers are
i64-range integers, by mutual structural induction. -/
theorem roundtripAux (f : ℚ → String) :
    ∀ v : Value, valueIntOk v = true → unmarshall (marshall f v) = v
  | .null, _ => by simp [marshall, unmarshall]
  | .bool b, _ => by simp [marshall, unmarshall]
  | .num n, h => by
      simp only [marshall, unmarshall]
      exact unmarshallN_intText f n (by simpa [valueIntOk] using h)
  | .str s, _ => by simp [marshall, unmarshall]
  | .arr l, h => by
      simp only [marshall, unmarshall]
      rw [roundtripAuxList f l (by simpa [valueIntOk] using h)]
  | .obj o, h => by
      simp only [marshall, unmarshall]
      rw [roundtripAuxObj f o (by simpa [valueIntOk] using h)]

theorem roundtripAuxList (f : ℚ → String) :
    ∀ l : List Value, valueIntOkList l = true →
      unmarshallList (marshallList f l) = l
  | [], _ => rfl
  | v :: t, h => by
      simp only [marshallList, unmarshallList]
      have h' : valueIntOk v = true ∧ valueIntOkList t = true := by
        simpa [valueIntOkList, Bool.and_eq_true] using h
      rw [roundtripAux f v h'.1, roundtripAuxList f t h'.2]

theorem roundtripAuxObj (f : ℚ → String) :
    ∀ o : List (String × Value), valueIntOkObj o = true →
      unmarshallObj (marshallObj f o) = o
  | [], _ => rfl
  | (k, v) :: t, h => by
      simp only [marshallObj, unmarshallObj]
      have h' : valueIntOk v = true ∧ valueIntOkObj t = true := by
        simpa [valueIntOkObj, Bool.and_eq_true] using h
      rw [roundtripAux f v h'.1, roundtripAuxObj f t h'.2]
end

set_option maxRecDepth 4000

theorem jnumIntOk_ofI64 {i : ℤ} (h1 : -(2 ^ 63) ≤ i) (h2 : i ≤ 2 ^ 63 - 1) :
    jnumIntOk (jnumOfI64 i) = true := by
  unfold jnumOfI64
  split
  · simp only [jnumIntOk, Bool.and_eq_true, decide_eq_true_eq]
    refine ⟨h1, by omega⟩
  · simp only [jnumIntOk, decide_eq_true_eq]
    omega

/-- Claim C1 (amended): decoding the encoding returns the value for every
generic value whose numbers are integers in the i64 range. -/
theorem C1_roundtrip (f : ℚ → String) (v : Value)
    (h : valueIntOk v = true) : unmarshall (marshall f v) = v :=
  roundtripAux f v h

theorem C1_roundtrip_witness :
    valueIntOk
        (.obj [("a", .num (.posInt 42)),
               ("b", .arr [.num (.negInt (-7)), .str "x", .null, .bool true]),
               ("c", .obj []), ("d", .arr [])]) = true ∧
    unmarshall (marshall (fun _ => "")
        (.obj [("a", .num (.posInt 42)),
               ("b", .arr [.num (.negInt (-7)), .str "x", .null, .bool true]),
               ("c", .obj []), ("d", .arr [])])) =
      .obj [("a", .num (.posInt 42)),
            ("b", .arr [.num (.negInt (-7)), .str "x", .null, .bool true]),
            ("c", .obj []), ("d", .arr [])] :=
  ⟨by with_unfolding_all rfl,
   C1_roundtrip (fun _ => "") _ (by with_unfolding_all rfl)⟩

/-- Claim C1 counterexample: the u64 number 18446744073709551615 (above
the i64 range) encodes to N "18446744073709551615", whose decoding falls
back to a String, so the round-trip fails on it. -/
theorem C1_cex :
    unmarshall (marshall (fun _ => "")
      (.num (.posInt 18446744073709551615))) ≠
      .num (.posInt 18446744073709551615) := by
  have h1 : unmarshall (marshall (fun _ => "")
      (.num (.posInt 18446744073709551615))) =
      .str "18446744073709551615" := by with_unfolding_all rfl
  rw [h1]
  exact fun hh => Value.noConfusion hh

/-- Decode policy for numeric text as the amended claim C2 states it: on a
'.', parse as a double, a finite result giving Number, a non-finite result
giving Null, a parse failure giving the text as a String; otherwise parse
as an i64, success giving Number and failure giving the text as a
String. -/
def numPolicySpec (v : String) : Value :=
  if v.data.contains '.' then
    match parseF64 v with
    | some (.finite q) => .num (.float q)
    | some _ => .null
    | none => .str v
  else
    match parseI64 v with
    | some i => .num (jnumOfI64 i)
    | none => .str v

/-- Claim C2 (amended): the decoder's N arm follows the stated numeric
policy, with the proviso that a successfully parsed but non-finite double
yields Null rather than a Number; out-of-range integer text and malformed
text fall back to the verbatim String, and the decoder never fails. -/
theorem C2_policy :
    (∀ v : String, unmarshall (.N v) = numPolicySpec v) ∧
    unmarshall (.N "999999999999999999999") = .str "999999999999999999999" ∧
    unmarshall (.N "123abc") = .str "123abc" := by
  refine ⟨?_, by with_unfolding_all rfl, by with_unfolding_all rfl⟩
  intro v
  show unmarshallN v = numPolicySpec v
  rw [unmarshallN, numPolicySpec]
  by_cases h : v.data.contains '.' = true
  · rw [if_pos h, if_pos h]
    cases parseF64 v with
    | none => rfl
    | some f => cases f <;> rfl
  · rw [if_neg h, if_neg h]

/-- Claim C2 counterexample: "2.5e308" holds a '.', parses successfully as
a double (to positive infinity), yet the decoder emits Null, neither
Number(parsed) nor the lenient String fallback. -/
theorem C2_cex :
    "2.5e308".data.contains '.' = true ∧
    parseF64 "2.5e308" = some .inf ∧
    unmarshall (.N "2.5e308") = .null ∧
    unmarshall (.N "2.5e308") ≠ .str "2.5e308" := by
  refine ⟨by decide, by with_unfolding_all rfl, by with_unfolding_all rfl, ?_⟩
  have h1 : unmarshall (.N "2.5e308") = .null := by with_unfolding_all rfl
  rw [h1]
  exact fun hh => Value.noConfusion hh

/-- Claim C3 (amended): decoding N of the canonical rendering of any
64-bit signed integer yields exactly that integer as a Number; decoding N
of any text that holds a '.' and reparses to a finite double q yields
Number(q), covering every double whose canonical rendering holds a '.';
doubles canonically rendered in exponent form without a '.', such as 1e16,
fall back to String instead. -/
theorem C3_numeric_fidelity :
    (∀ (f : ℚ → String) (i : ℤ), -(2 ^ 63) ≤ i → i ≤ 2 ^ 63 - 1 →
      unmarshall (.N (jnumText f (jnumOfI64 i))) = .num (jnumOfI64 i)) ∧
    (∀ (t : String) (q : ℚ), t.data.contains '.' = true →
      parseF64 t = some (.finite q) →
      unmarshall (.N t) = .num (.float q)) := by
  constructor
  · intro f i h1 h2
    show unmarshallN (jnumText f (jnumOfI64 i)) = .num (jnumOfI64 i)
    exact unmarshallN_intText f _ (jnumIntOk_ofI64 h1 h2)
  · intro t q h hp
    show unmarshallN t = .num (.float q)
    rw [unmarshallN, if_pos h, hp]
    rfl

theorem C3_numeric_fidelity_witness :
    unmarshall (.N "-42") = .num (.negInt (-42)) ∧
    unmarshall (.N "1.5") = .num (.float (3 / 2)) := by
  constructor
  · have h := C3_numeric_fidelity.1 (fun _ => "") (-42) (by norm_num) (by norm_num)
    rw [show jnumText (fun _ => "") (jnumOfI64 (-42)) = "-42" from by
          with_unfolding_all rfl,
        show jnumOfI64 (-42) = JNumber.negInt (-42) from by
          with_unfolding_all rfl] at h
    exact h
  · exact C3_numeric_fidelity.2 "1.5" (3 / 2) (by decide)
      (by with_unfolding_all rfl)

/-- Claim C3 counterexample: the double 10^16 is exactly representable (the
parser returns exactly 10^16 for its canonical serde_json rendering
"1e16"), yet decoding N "1e16" yields the String "1e16", not Number(10^16),
because the text holds no '.' and exceeds no i64 parse: the i64 grammar
rejects the letter e. -/
theorem C3_cex :
    parseF64 "1e16" = some (.finite (10 ^ 16)) ∧
    unmarshall (.N "1e16") = .str "1e16" ∧
    unmarshall (.N "1e16") ≠ .num (.float (10 ^ 16)) := by
  refine ⟨by with_unfolding_all rfl, by with_unfolding_all rfl, ?_⟩
  have h1 : unmarshall (.N "1e16") = .str "1e16" := by with_unfolding_all rfl
  rw [h1]
  exact fun hh => Value.noConfusion hh

mutual
/-- Every attribute value the encoder produces is free of the Binary and
set variants. -/
theorem avNoSet_marshall (f : ℚ → String) :
    ∀ v : Value, avNoSet (marshall f v) = true
  | .null => rfl
  | .bool b => rfl
  | .num n => rfl
  | .str s => rfl
  | .arr l => by
      simp only [marshall, avNoSet]
      exact avNoSet_marshallList f l
  | .obj o => by
      simp only [marshall, avNoSet]
      exact avNoSet_marshallObj f o

/-- List version of avNoSet_marshall. -/
theorem avNoSet_marshallList (f : ℚ → String) :
    ∀ l : List Value, avNoSetList (marshallList f l) = true
  | [] => rfl
  | v :: t => by
      simp only [marshallList, avNoSetList, Bool.and_eq_true]
      exact ⟨avNoSet_marshall f v, avNoSet_marshallList f t⟩

/-- Entry version of avNoSet_marshall. -/
theorem avNoSet_marshallObj (f : ℚ → String) :
    ∀ o : List (String × Value), avNoSetObj (marshallObj f o) = true
  | [] => rfl
  | (k, v) :: t => by
      simp only [marshallObj, avNoSetObj, Bool.and_eq_true]
      exact ⟨avNoSet_marshall f v, avNoSet_marshallObj f t⟩
end

/-- Claim C4: the encoder is total by construction and maps each variant
as stated, preserving order and keys, sending empty containers to empty
containers, and never emitting a Binary, NumberSet, StringSet or BinarySet
anywhere in its output. -/
theorem C4_marshall_shape :
    ∀ f : ℚ → String,
      marshall f .null = .Null true ∧
      (∀ b, marshall f (.bool b) = .Bool b) ∧
      (∀ n, marshall f (.num n) = .N (jnumText f n)) ∧
      (∀ s, marshall f (.str s) = .S s) ∧
      (∀ l, marshall f (.arr l) = .L (l.map (marshall f))) ∧
      (∀ o, marshall f (.obj o) =
        .M (o.map fun kv => (kv.1, marshall f kv.2))) ∧
      marshall f (.arr []) = .L [] ∧
      marshall f (.obj []) = .M [] ∧
      (∀ o : List (String × Value),
        ((o.map fun kv => (kv.1, marshall f kv.2)).map Prod.fst) =
          o.map Prod.fst) ∧
      (∀ v, avNoSet (marshall f v) = true) := by
  intro f
  refine ⟨rfl, fun b => rfl, fun n => rfl, fun s => rfl, ?_, ?_, ?_, ?_, ?_,
    avNoSet_marshall f⟩
  · intro l; rw [marshall, marshallList_eq_map]
  · intro o; rw [marshall, marshallObj_eq_map]
  · rfl
  · rfl
  · intro o; simp

/-- Claim C5: decoding a store-native set yields the ordered sequence of
its elements' decoded forms in original order, and re-encoding that result
always produces a List, never a set variant. -/
theorem C5_lossy_sets :
    ∀ (f : ℚ → String) (ns ss : List String) (bs : List (List ℕ)),
      unmarshall (.Ns ns) = .arr (ns.map fun v => unmarshall (.N v)) ∧
      unmarshall (.Ss ss) = .arr (ss.map fun s => unmarshall (.S s)) ∧
      unmarshall (.Bs bs) = .arr (bs.map fun b => unmarshall (.B b)) ∧
      isListAV (marshall f (unmarshall (.Ns ns))) = true ∧
      isListAV (marshall f (unmarshall (.Ss ss))) = true ∧
      isListAV (marshall f (unmarshall (.Bs bs))) = true := by
  intro f ns ss bs
  refine ⟨rfl, rfl, rfl, ?_, ?_, ?_⟩ <;> rw [unmarshall, marshall, isListAV]

/-- Claim C6: the decoder never fails; a Null store value decodes to the
generic Null whatever its flag, and so does any variant outside the arms
the decoder lists (the non_exhaustive enum's unknown variants). -/
theorem C6_null_fallback :
    (∀ b : Bool, unmarshall (.Null b) = .null) ∧
    unmarshall .Unknown = .null :=
  ⟨fun _ => rfl, rfl⟩

/-- Claim C7: decoding a Binary yields one plain Number per byte, in the
original byte order, each a non-negative integer at most 255. -/
theorem C7_binary (blob : List ℕ) (hb : ∀ b ∈ blob, b ≤ 255) :
    unmarshall (.B blob) = .arr (blob.map fun b => .num (.posInt b)) ∧
    ∀ x ∈ blob.map fun b => Value.num (.posInt b),
      ∃ b ≤ 255, x = .num (.posInt b) := by
  refine ⟨rfl, ?_⟩
  intro x hx
  obtain ⟨b, hbm, rfl⟩ := List.mem_map.mp hx
  exact ⟨b, hb b hbm, rfl⟩

theorem C7_binary_witness :
    unmarshall (.B [1, 2, 3, 4, 255]) =
      .arr [.num (.posInt 1), .num (.posInt 2), .num (.posInt 3),
            .num (.posInt 4), .num (.posInt 255)] :=
  (C7_binary [1, 2, 3, 4, 255] (by decide)).1.trans (by with_unfolding_all rfl)

/-- Claim C8: the typed adapters are exactly the compositions with the
external serializer: marshall_t propagates the serializer's error and
otherwise applies the infallible encoder, succeeding exactly when the
serializer does; unmarshall_t applies the infallible decoder and then the
external deserializer, whose outcome is its own. -/
theorem C8_typed_adapters :
    ∀ f : ℚ → String,
      (∀ e : String, marshall_t f (.error e) = .error e) ∧
      (∀ v : Value, marshall_t f (.ok v) = .ok (marshall f v)) ∧
      (∀ ser : Except String Value, (marshall_t f ser).isOk = ser.isOk) ∧
      (∀ (T : Type) (de : Value → Except String T) (m : AttributeValue),
        unmarshall_t de m = de (unmarshall m)) := by
  intro f
  refine ⟨fun e => rfl, fun v => rfl, ?_, fun T de m => rfl⟩
  rintro (e | v) <;> rfl

/-- Claim C9: "2.5e308" holds a '.', parses successfully as a double but
overflows to positive infinity, and the decoder returns Null for it: the
generic model cannot hold a non-finite double, json! maps it to Null. -/
theorem C9_nonfinite_null :
    "2.5e308".data.contains '.' = true ∧
    parseF64 "2.5e308" = some .inf ∧
    jsonOfF64 .inf = .null ∧
    unmarshall (.N "2.5e308") = .null ∧
    unmarshall (.N "2.5e308") ≠ .num (.float (25 * 10 ^ 307 / 10)) := by
  refine ⟨by decide, by with_unfolding_all rfl, rfl,
    by with_unfolding_all rfl, ?_⟩
  have h1 : unmarshall (.N "2.5e308") = .null := by with_unfolding_all rfl
  rw [h1]
  exact fun hh => Value.noConfusion hh

/-- Claim C10: a NumberSet decodes element by element under exactly the
numeric policy of a top-level NumberString, so a malformed element becomes
a String while well-formed elements stay Numbers, and the decode never
fails. -/
theorem C10_ns_elementwise :
    (∀ ns : List String,
      unmarshall (.Ns ns) = .arr (ns.map fun v => unmarshall (.N v))) ∧
    unmarshall (.Ns ["7", "123abc", "2.5"]) =
      .arr [.num (.posInt 7), .str "123abc", .num (.float (5 / 2))] :=
  ⟨fun ns => rfl, by with_unfolding_all rfl⟩

end DynDB
